import Mathlib

/-!
Verification development for the pipeline-parallel scheduling solver
(src/simulator/simulator.py).  The simulator encodes a scheduling problem
over integer start-offset variables: one forward offset and one backward
offset per (stage, microbatch) pair.  We embed the constraint families the
encoder asserts as propositions over an explicit assignment of every
offset variable, and prove the stated properties about them.
-/

namespace PipelineSim

/-- The three ordering strategies accepted by the simulator
(`sequential_order_constraint_strategy`). -/
inductive Strategy where
  | strict : Strategy
  | double_interleaving : Strategy
  | full_interleaving : Strategy
deriving DecidableEq

/-- The validated configuration held by a constructed Simulator:
`pp_size` stages, `num_microbatches` microbatches, the two block
durations, the chosen strategy and the per-stage activation capacities
(`max_activation_times`). -/
structure Config where
  pp_size : Nat
  num_microbatches : Nat
  forward_execution_time : Int
  backward_execution_time : Int
  sequential_order_constraint_strategy : Strategy
  max_activation_times : List Int

/-- A total assignment of the solver's decision variables: `fwd pp mb` is
the start offset of microbatch `mb`'s forward block on stage `pp`
(variable `f_{mb}_{pp}`), `bwd pp mb` of its backward block
(variable `b_{mb}_{pp}`). -/
structure Assignment where
  fwd : Nat → Nat → Int
  bwd : Nat → Nat → Int

/-- Variable-creation constraints from `_build_constraints`: every
forward and backward offset is `≥ 0`. -/
def nonNegProp (P M : Nat) (σ : Assignment) : Prop :=
  ∀ pp < P, ∀ mb < M, σ.fwd pp mb ≥ 0 ∧ σ.bwd pp mb ≥ 0

/-- `_sequential_order_constraint_strict`: per microbatch, the forward
chain over stages `1..P-1`, the backward chain over stages `P-1..1`
(descending), and the forward-to-backward handoff at stage `P-1`. -/
def strictProp (P M : Nat) (Df Db : Int) (σ : Assignment) : Prop :=
  ∀ mb < M,
    (∀ i < P, 1 ≤ i → σ.fwd i mb ≥ σ.fwd (i - 1) mb + Df) ∧
    (∀ i < P, 1 ≤ i → σ.bwd (i - 1) mb ≥ σ.bwd i mb + Db) ∧
    σ.bwd (P - 1) mb ≥ σ.fwd (P - 1) mb + Df

/-- The `down_case` conjunction of
`_sequential_order_constraint_double_interleaving`: the strict stage
order `0..P-1` for one microbatch. -/
def downCase (P : Nat) (Df Db : Int) (σ : Assignment) (mb : Nat) : Prop :=
  (∀ i < P, 1 ≤ i → σ.fwd i mb ≥ σ.fwd (i - 1) mb + Df) ∧
  (∀ i < P, 1 ≤ i → σ.bwd (i - 1) mb ≥ σ.bwd i mb + Db) ∧
  σ.bwd (P - 1) mb ≥ σ.fwd (P - 1) mb + Df

/-- The `up_case` conjunction of
`_sequential_order_constraint_double_interleaving`: the reversed stage
order `P-1..0` for one microbatch, with the handoff at stage `0`. -/
def upCase (P : Nat) (Df Db : Int) (σ : Assignment) (mb : Nat) : Prop :=
  (∀ i < P, 1 ≤ i → σ.fwd (i - 1) mb ≥ σ.fwd i mb + Df) ∧
  (∀ i < P, 1 ≤ i → σ.bwd i mb ≥ σ.bwd (i - 1) mb + Db) ∧
  σ.bwd 0 mb ≥ σ.fwd 0 mb + Df

/-- `_sequential_order_constraint_double_interleaving`: per microbatch,
the disjunction of the down and up cases. -/
def doubleProp (P M : Nat) (Df Db : Int) (σ : Assignment) : Prop :=
  ∀ mb < M, downCase P Df Db σ mb ∨ upCase P Df Db σ mb

/-- One disjunct of `_sequential_order_constraint_full_interleaving`:
for a stage ordering `l` (a permutation of `0..P-1`), the forward chain
along `l`, the backward chain along the reverse of `l`, and the handoff
at `l`'s last stage. -/
def fullCase (Df Db : Int) (σ : Assignment) (mb : Nat) (l : List Nat) : Prop :=
  (∀ i < l.length - 1,
      σ.fwd (l.getD (i + 1) 0) mb ≥ σ.fwd (l.getD i 0) mb + Df) ∧
  (∀ i < l.length, 1 ≤ i →
      σ.bwd (l.getD (i - 1) 0) mb ≥ σ.bwd (l.getD i 0) mb + Db) ∧
  σ.bwd (l.getD (l.length - 1) 0) mb ≥ σ.fwd (l.getD (l.length - 1) 0) mb + Df

/-- `_sequential_order_constraint_full_interleaving`: per microbatch, a
disjunction over all permutations of the stage list `0..P-1`
(`itertools.permutations(range(pp_size))`). -/
def fullProp (P M : Nat) (Df Db : Int) (σ : Assignment) : Prop :=
  ∀ mb < M, ∃ l ∈ (List.range P).permutations, fullCase Df Db σ mb l

/-- The variable at index `k` of the concatenated per-stage list
`_pp_vars = forward_offsets[pp] + backward_offsets[pp]` (each half has
`M` entries). -/
def ppVarAt (M : Nat) (σ : Assignment) (pp k : Nat) : Int :=
  if k < M then σ.fwd pp k else σ.bwd pp (k - M)

/-- The duration attributed to index `k` by
`_serial_computation_within_pipeline_constraint`: forward length when
`k // num_microbatches == 0`, backward length otherwise. -/
def ppLenAt (M : Nat) (Df Db : Int) (k : Nat) : Int :=
  if k / M = 0 then Df else Db

/-- `_serial_computation_within_pipeline_constraint`: for every stage and
every index pair `i < j` into the concatenated variable list, either
block `j` starts after block `i` finishes or block `j` finishes before
block `i` starts. -/
def serialProp (P M : Nat) (Df Db : Int) (σ : Assignment) : Prop :=
  ∀ pp < P, ∀ i < 2 * M, ∀ j < 2 * M, i < j →
    (ppVarAt M σ pp j ≥ ppVarAt M σ pp i + ppLenAt M Df Db i ∨
     ppVarAt M σ pp j + ppLenAt M Df Db j ≤ ppVarAt M σ pp i)

/-- The activation count accumulated by
`_pipeline_activation_accumulation_constraint` for stage `pp` and
microbatch `mb`: 1 for `mb` itself plus 1 for every other microbatch
whose backward offset is strictly later and whose forward offset is
strictly earlier than `mb`'s backward offset. -/
def activationCount (M : Nat) (σ : Assignment) (pp mb : Nat) : Int :=
  1 + ((List.range M).map (fun other =>
        if other = mb then 0
        else if σ.bwd pp other > σ.bwd pp mb ∧ σ.fwd pp other < σ.bwd pp mb
          then 1 else 0)).sum

/-- `_pipeline_activation_accumulation_constraint` as a proposition: for
every stage and microbatch, the activation count stays within that
stage's capacity. -/
def activationProp (P M : Nat) (cap : List Int) (σ : Assignment) : Prop :=
  ∀ pp < P, ∀ mb < M, activationCount M σ pp mb ≤ cap.getD pp 0

/-- The list of capacity constraints asserted by
`_pipeline_activation_accumulation_constraint`, in loop order: one
constraint per (stage, microbatch) pair. -/
def activationList (P M : Nat) (cap : List Int) (σ : Assignment) : List Prop :=
  (List.range P).flatMap fun pp =>
    (List.range M).map fun mb =>
      activationCount M σ pp mb ≤ cap.getD pp 0

/-- The list of ordering constraints asserted by
`_sequential_order_constraint_strict`, in loop order: per microbatch,
the forward chain (`i = 1..P-1`), the backward chain (`i = P-1..1`,
descending) and the handoff at stage `P-1`. -/
def strictList (P M : Nat) (Df Db : Int) (σ : Assignment) : List Prop :=
  (List.range M).flatMap fun mb =>
    ((List.range' 1 (P - 1)).map fun i =>
        σ.fwd i mb ≥ σ.fwd (i - 1) mb + Df) ++
    ((List.range' 1 (P - 1)).reverse.map fun i =>
        σ.bwd (i - 1) mb ≥ σ.bwd i mb + Db) ++
    [σ.bwd (P - 1) mb ≥ σ.fwd (P - 1) mb + Df]

/-- The strategy dispatch of `_build_constraints`. -/
def orderProp (strat : Strategy) (P M : Nat) (Df Db : Int) (σ : Assignment) : Prop :=
  match strat with
  | .strict => strictProp P M Df Db σ
  | .double_interleaving => doubleProp P M Df Db σ
  | .full_interleaving => fullProp P M Df Db σ

/-- The full constraint store built by `_build_constraints`: variable
non-negativity, the selected ordering constraints, the intra-stage
non-overlap constraints, and the activation-capacity constraints. -/
def satisfies (cfg : Config) (σ : Assignment) : Prop :=
  nonNegProp cfg.pp_size cfg.num_microbatches σ ∧
  orderProp cfg.sequential_order_constraint_strategy
    cfg.pp_size cfg.num_microbatches
    cfg.forward_execution_time cfg.backward_execution_time σ ∧
  serialProp cfg.pp_size cfg.num_microbatches
    cfg.forward_execution_time cfg.backward_execution_time σ ∧
  activationProp cfg.pp_size cfg.num_microbatches cfg.max_activation_times σ

/-- `_build_optimize_objectives`: the auxiliary variable
`max_start_offset` is constrained to be `≥` every backward offset. -/
def objectiveProp (P M : Nat) (σ : Assignment) (v : Int) : Prop :=
  ∀ pp < P, ∀ mb < M, v ≥ σ.bwd pp mb

/-- `n` is the optimal value of the minimized objective: some satisfying
assignment admits `n` as an upper bound on all backward offsets, and no
satisfying assignment admits a smaller one. -/
def isOptimalObjective (cfg : Config) (n : Int) : Prop :=
  (∃ σ, satisfies cfg σ ∧
    objectiveProp cfg.pp_size cfg.num_microbatches σ n) ∧
  ∀ σ v, satisfies cfg σ →
    objectiveProp cfg.pp_size cfg.num_microbatches σ v → n ≤ v

/-- `m` is the completion time of the last-finishing backward block of
assignment `σ`: every backward block finishes by `m`, and some backward
block finishes exactly at `m`. -/
def isLastBackwardFinish (P M : Nat) (Db : Int) (σ : Assignment) (m : Int) : Prop :=
  (∀ pp < P, ∀ mb < M, σ.bwd pp mb + Db ≤ m) ∧
  ∃ pp, pp < P ∧ ∃ mb, mb < M ∧ m = σ.bwd pp mb + Db

/-- Block direction: the forward or backward pass. -/
inductive Direction where
  | forward : Direction
  | backward : Direction
deriving DecidableEq

/-- The start offset of a block under assignment `σ`. -/
def blockStart (σ : Assignment) (pp : Nat) (d : Direction) (mb : Nat) : Int :=
  match d with
  | .forward => σ.fwd pp mb
  | .backward => σ.bwd pp mb

/-- The fixed duration of a block: `Df` for forward, `Db` for backward. -/
def blockDuration (Df Db : Int) (d : Direction) : Int :=
  match d with
  | .forward => Df
  | .backward => Db

/-- The index of a block in the concatenated per-stage list
`forward_offsets[pp] + backward_offsets[pp]`. -/
def blockIdx (M : Nat) (d : Direction) (mb : Nat) : Nat :=
  match d with
  | .forward => mb
  | .backward => M + mb

/-- A Python value as far as `Simulator.__init__`'s checks can observe
it: either an int or some non-int value. -/
inductive PyValue where
  | pyInt : Int → PyValue
  | pyNonInt : PyValue
deriving DecidableEq

/-- The raw configuration dictionary handed to `Simulator.__init__`
before any validation. -/
structure RawConfig where
  pp_size : Nat
  num_microbatches : Nat
  max_activation_times : List Int
  forward_execution_time : PyValue
  backward_execution_time : PyValue
  sequential_order_constraint_strategy : String

/-- The `isinstance(x, int)` test. -/
def isInstanceInt : PyValue → Bool
  | .pyInt _ => true
  | .pyNonInt => false

/-- The validation performed by `Simulator.__init__`: the two duration
fields must be ints, and the strategy must be one of the three supported
names.  Nothing else is checked at construction. -/
def initAccepts (c : RawConfig) : Bool :=
  isInstanceInt c.forward_execution_time &&
  isInstanceInt c.backward_execution_time &&
  (c.sequential_order_constraint_strategy == "strict" ||
   c.sequential_order_constraint_strategy == "double_interleaving" ||
   c.sequential_order_constraint_strategy == "full_interleaving")

/-- The three possible answers of the external solver's check. -/
inductive Z3CheckResult where
  | sat : Z3CheckResult
  | unsat : Z3CheckResult
  | unknown : Z3CheckResult
deriving DecidableEq

/-- The outcome printed by `Simulator.run`: the sat branch prints
"Result: SAT"; every other check result falls into the else branch and
prints "Result: UNSAT". -/
def runReport (r : Z3CheckResult) : String :=
  if r = Z3CheckResult.sat then "Result: SAT" else "Result: UNSAT"

section DecidableInstances

variable (P M : Nat) (Df Db : Int) (σ : Assignment) (mb : Nat)

instance : Decidable (nonNegProp P M σ) := by
  unfold nonNegProp; exact inferInstance

instance : Decidable (strictProp P M Df Db σ) := by
  unfold strictProp; exact inferInstance

instance : Decidable (downCase P Df Db σ mb) := by
  unfold downCase; exact inferInstance

instance : Decidable (upCase P Df Db σ mb) := by
  unfold upCase; exact inferInstance

instance : Decidable (doubleProp P M Df Db σ) := by
  unfold doubleProp; exact inferInstance

instance instDecFullCase (l : List Nat) : Decidable (fullCase Df Db σ mb l) := by
  unfold fullCase; exact inferInstance

instance : Decidable (fullProp P M Df Db σ) := by
  unfold fullProp; exact inferInstance

instance : Decidable (serialProp P M Df Db σ) := by
  unfold serialProp; exact inferInstance

instance (cap : List Int) : Decidable (activationProp P M cap σ) := by
  unfold activationProp; exact inferInstance

instance instDecOrderProp (strat : Strategy) :
    Decidable (orderProp strat P M Df Db σ) :=
  match strat with
  | .strict => inferInstanceAs (Decidable (strictProp P M Df Db σ))
  | .double_interleaving => inferInstanceAs (Decidable (doubleProp P M Df Db σ))
  | .full_interleaving => inferInstanceAs (Decidable (fullProp P M Df Db σ))

instance (cfg : Config) : Decidable (satisfies cfg σ) := by
  unfold satisfies; exact inferInstance

instance (v : Int) : Decidable (objectiveProp P M σ v) := by
  unfold objectiveProp; exact inferInstance

end DecidableInstances

section ChainLemmas

/-- Accumulation along an ascending chain: when each step from `i` to
`i+1` below `n` raises `g` by at least `d`, then `k` steps raise it by
at least `k * d`. -/
lemma chain_up (g : Nat → Int) (d : Int) (n : Nat)
    (h : ∀ i, i + 1 < n → g (i + 1) ≥ g i + d) :
    ∀ a k, a + k < n → g (a + k) ≥ g a + (k : Int) * d := by
  intro a k
  induction k with
  | zero => intro _; simp
  | succ k ih =>
    intro hk
    have h1 := ih (by omega)
    have h2 := h (a + k) (by omega)
    have h3 : ((k + 1 : Nat) : Int) * d = (k : Int) * d + d := by push_cast; ring
    have h4 : a + (k + 1) = (a + k) + 1 := by omega
    rw [h4, h3]
    linarith

/-- Accumulation along a descending chain: when each step from `i` to
`i+1` below `n` lowers `g` by at least `d`, then `g a` exceeds
`g (a + k)` by at least `k * d`. -/
lemma chain_down (g : Nat → Int) (d : Int) (n : Nat)
    (h : ∀ i, i + 1 < n → g i ≥ g (i + 1) + d) :
    ∀ a k, a + k < n → g a ≥ g (a + k) + (k : Int) * d := by
  intro a k
  induction k with
  | zero => intro _; simp
  | succ k ih =>
    intro hk
    have h1 := ih (by omega)
    have h2 := h (a + k) (by omega)
    have h3 : ((k + 1 : Nat) : Int) * d = (k : Int) * d + d := by push_cast; ring
    have h4 : a + (k + 1) = (a + k) + 1 := by omega
    rw [h4, h3]
    linarith

/-- In the down case, each stage's backward block starts at least `Df`
after its forward block. -/
lemma downCase_sep (P : Nat) (Df Db : Int) (σ : Assignment) (mb : Nat)
    (hDf : 0 ≤ Df) (hDb : 0 ≤ Db) (h : downCase P Df Db σ mb) :
    ∀ pp < P, σ.bwd pp mb ≥ σ.fwd pp mb + Df := by
  intro pp hpp
  obtain ⟨h1, h2, h3⟩ := h
  have hf : ∀ i, i + 1 < P → σ.fwd (i + 1) mb ≥ σ.fwd i mb + Df := by
    intro i hi
    have := h1 (i + 1) (by omega) (by omega)
    simpa using this
  have hb : ∀ i, i + 1 < P → σ.bwd i mb ≥ σ.bwd (i + 1) mb + Db := by
    intro i hi
    have := h2 (i + 1) (by omega) (by omega)
    simpa using this
  have he : pp + (P - 1 - pp) = P - 1 := by omega
  have hfe : σ.fwd (P - 1) mb ≥ σ.fwd pp mb + ((P - 1 - pp : Nat) : Int) * Df := by
    have := chain_up (fun i => σ.fwd i mb) Df P hf pp (P - 1 - pp) (by omega)
    rw [he] at this
    exact this
  have hbe : σ.bwd pp mb ≥ σ.bwd (P - 1) mb + ((P - 1 - pp : Nat) : Int) * Db := by
    have := chain_down (fun i => σ.bwd i mb) Db P hb pp (P - 1 - pp) (by omega)
    rw [he] at this
    exact this
  have hk : (0 : Int) ≤ ((P - 1 - pp : Nat) : Int) := Int.natCast_nonneg _
  have hm1 := mul_nonneg hk hDf
  have hm2 := mul_nonneg hk hDb
  linarith

/-- In the up case, each stage's backward block starts at least `Df`
after its forward block. -/
lemma upCase_sep (P : Nat) (Df Db : Int) (σ : Assignment) (mb : Nat)
    (hDf : 0 ≤ Df) (hDb : 0 ≤ Db) (h : upCase P Df Db σ mb) :
    ∀ pp < P, σ.bwd pp mb ≥ σ.fwd pp mb + Df := by
  intro pp hpp
  obtain ⟨h1, h2, h3⟩ := h
  have hf : ∀ i, i + 1 < P → σ.fwd i mb ≥ σ.fwd (i + 1) mb + Df := by
    intro i hi
    have := h1 (i + 1) (by omega) (by omega)
    simpa using this
  have hb : ∀ i, i + 1 < P → σ.bwd (i + 1) mb ≥ σ.bwd i mb + Db := by
    intro i hi
    have := h2 (i + 1) (by omega) (by omega)
    simpa using this
  have hfe : σ.fwd 0 mb ≥ σ.fwd pp mb + ((pp : Nat) : Int) * Df := by
    have := chain_down (fun i => σ.fwd i mb) Df P hf 0 pp (by omega)
    simpa using this
  have hbe : σ.bwd pp mb ≥ σ.bwd 0 mb + ((pp : Nat) : Int) * Db := by
    have := chain_up (fun i => σ.bwd i mb) Db P hb 0 pp (by omega)
    simpa using this
  have hk : (0 : Int) ≤ ((pp : Nat) : Int) := Int.natCast_nonneg _
  have hm1 := mul_nonneg hk hDf
  have hm2 := mul_nonneg hk hDb
  linarith

/-- In a full-interleaving disjunct for permutation `l`, each stage's
backward block starts at least `Df` after its forward block. -/
lemma fullCase_sep (P : Nat) (Df Db : Int) (σ : Assignment) (mb : Nat)
    (hDf : 0 ≤ Df) (hDb : 0 ≤ Db) (l : List Nat)
    (hl : List.Perm l (List.range P)) (h : fullCase Df Db σ mb l) :
    ∀ pp < P, σ.bwd pp mb ≥ σ.fwd pp mb + Df := by
  intro pp hpp
  obtain ⟨h1, h2, h3⟩ := h
  have hlen : l.length = P := by simpa using hl.length_eq
  have hmem : pp ∈ l := hl.mem_iff.mpr (List.mem_range.mpr hpp)
  obtain ⟨k, hk, hget⟩ := List.mem_iff_getElem.mp hmem
  have hgd : l.getD k 0 = pp := by rw [List.getD_eq_getElem l 0 hk, hget]
  have hf : ∀ i, i + 1 < l.length →
      σ.fwd (l.getD (i + 1) 0) mb ≥ σ.fwd (l.getD i 0) mb + Df := by
    intro i hi
    exact h1 i (by omega)
  have hb : ∀ i, i + 1 < l.length →
      σ.bwd (l.getD i 0) mb ≥ σ.bwd (l.getD (i + 1) 0) mb + Db := by
    intro i hi
    have := h2 (i + 1) (by omega) (by omega)
    simpa using this
  have he : k + (l.length - 1 - k) = l.length - 1 := by omega
  have hfe : σ.fwd (l.getD (l.length - 1) 0) mb ≥
      σ.fwd (l.getD k 0) mb + ((l.length - 1 - k : Nat) : Int) * Df := by
    have := chain_up (fun i => σ.fwd (l.getD i 0) mb) Df l.length hf
      k (l.length - 1 - k) (by omega)
    rw [he] at this
    exact this
  have hbe : σ.bwd (l.getD k 0) mb ≥
      σ.bwd (l.getD (l.length - 1) 0) mb + ((l.length - 1 - k : Nat) : Int) * Db := by
    have := chain_down (fun i => σ.bwd (l.getD i 0) mb) Db l.length hb
      k (l.length - 1 - k) (by omega)
    rw [he] at this
    exact this
  rw [hgd] at hfe hbe
  have hnn : (0 : Int) ≤ ((l.length - 1 - k : Nat) : Int) := Int.natCast_nonneg _
  have hm1 := mul_nonneg hnn hDf
  have hm2 := mul_nonneg hnn hDb
  linarith

end ChainLemmas

/-- A one-stage, one-microbatch assignment used as a concrete witness:
the forward block at offset 0, the backward block at offset 1. -/
def unitAssign : Assignment := ⟨fun _ _ => 0, fun _ _ => 1⟩

/-- A two-stage, one-microbatch assignment used as a concrete witness:
forward offsets 0 and 1 on stages 0 and 1, backward offsets 3 and 2. -/
def pairAssign : Assignment :=
  ⟨fun pp _ => if pp = 0 then 0 else 1, fun pp _ => if pp = 0 then 3 else 2⟩

/-- C10: with positive forward and backward durations, under any of the
three strategies, every assignment satisfying the constructed
constraints puts each microbatch's backward block on each stage at
least `Df` after its forward block there; hence every activation window
is non-empty and each forward block completes before the matching
backward block begins. -/
theorem backward_after_forward (P M : Nat) (Df Db : Int)
    (strat : Strategy) (cap : List Int) (σ : Assignment)
    (hDf : 0 < Df) (hDb : 0 < Db)
    (hsat : satisfies ⟨P, M, Df, Db, strat, cap⟩ σ) :
    ∀ pp < P, ∀ mb < M, σ.bwd pp mb ≥ σ.fwd pp mb + Df := by
  intro pp hpp mb hmb
  have hord := hsat.2.1
  cases strat with
  | strict =>
    have h : strictProp P M Df Db σ := hord
    exact downCase_sep P Df Db σ mb hDf.le hDb.le (h mb hmb) pp hpp
  | double_interleaving =>
    have h : doubleProp P M Df Db σ := hord
    rcases h mb hmb with hd | hu
    · exact downCase_sep P Df Db σ mb hDf.le hDb.le hd pp hpp
    · exact upCase_sep P Df Db σ mb hDf.le hDb.le hu pp hpp
  | full_interleaving =>
    have h : fullProp P M Df Db σ := hord
    obtain ⟨l, hl, hc⟩ := h mb hmb
    exact fullCase_sep P Df Db σ mb hDf.le hDb.le l
      (List.mem_permutations.mp hl) hc pp hpp

/-- Witness for C10 at the unit configuration. -/
theorem backward_after_forward_witness :
    unitAssign.bwd 0 0 ≥ unitAssign.fwd 0 0 + 1 :=
  backward_after_forward 1 1 1 1 Strategy.strict [1] unitAssign
    (by decide) (by decide) (by decide) 0 (by decide) 0 (by decide)

/-- The index of a block in the per-stage variable list stays below
`2 * M`. -/
lemma blockIdx_lt (M : Nat) (d : Direction) (mb : Nat) (hmb : mb < M) :
    blockIdx M d mb < 2 * M := by
  cases d <;> simp [blockIdx] <;> omega

/-- Distinct blocks occupy distinct indices of the per-stage variable
list. -/
lemma blockIdx_ne (M : Nat) (d₁ d₂ : Direction) (mb₁ mb₂ : Nat)
    (hmb₁ : mb₁ < M) (hmb₂ : mb₂ < M) (h : d₁ ≠ d₂ ∨ mb₁ ≠ mb₂) :
    blockIdx M d₁ mb₁ ≠ blockIdx M d₂ mb₂ := by
  cases d₁ <;> cases d₂ <;> simp [blockIdx] at h ⊢ <;> omega

/-- The per-stage variable at a block's index is that block's start
offset. -/
lemma ppVarAt_blockIdx (M : Nat) (σ : Assignment) (pp : Nat)
    (d : Direction) (mb : Nat) (hmb : mb < M) :
    ppVarAt M σ pp (blockIdx M d mb) = blockStart σ pp d mb := by
  cases d with
  | forward => simp [ppVarAt, blockIdx, blockStart, hmb]
  | backward =>
    have h : ¬(M + mb < M) := by omega
    simp [ppVarAt, blockIdx, blockStart, h]

/-- The duration attributed to a block's index is that block's own
duration. -/
lemma ppLenAt_blockIdx (M : Nat) (Df Db : Int) (d : Direction) (mb : Nat)
    (hM : 0 < M) (hmb : mb < M) :
    ppLenAt M Df Db (blockIdx M d mb) = blockDuration Df Db d := by
  cases d with
  | forward => simp [ppLenAt, blockIdx, blockDuration, Nat.div_eq_of_lt hmb]
  | backward =>
    have h : ¬((M + mb) / M = 0) := by
      rw [Nat.div_eq_zero_iff hM]
      omega
    simp [ppLenAt, blockIdx, blockDuration, h]

/-- C2: the encoder's pairwise constraints use each block's own duration
(`Df` for the forward half of the index range, `Db` for the backward
half), and in every assignment satisfying them no two distinct blocks on
the same stage overlap in time: no instant lies in both half-open
execution intervals. -/
theorem serial_no_overlap (P M : Nat) (Df Db : Int) (σ : Assignment)
    (hM : 0 < M) (hser : serialProp P M Df Db σ) :
    (∀ k < 2 * M, ppLenAt M Df Db k =
      blockDuration Df Db
        (if k < M then Direction.forward else Direction.backward)) ∧
    ∀ pp < P, ∀ d₁ : Direction, ∀ mb₁ < M, ∀ d₂ : Direction, ∀ mb₂ < M,
      (d₁ ≠ d₂ ∨ mb₁ ≠ mb₂) → ∀ t : Int,
      ¬(blockStart σ pp d₁ mb₁ ≤ t ∧
        t < blockStart σ pp d₁ mb₁ + blockDuration Df Db d₁ ∧
        blockStart σ pp d₂ mb₂ ≤ t ∧
        t < blockStart σ pp d₂ mb₂ + blockDuration Df Db d₂) := by
  constructor
  · intro k hk
    rcases lt_or_ge k M with h | h
    · simp [ppLenAt, Nat.div_eq_of_lt h, h, blockDuration]
    · have hz : ¬(k / M = 0) := by
        rw [Nat.div_eq_zero_iff hM]
        omega
      have hnlt : ¬(k < M) := by omega
      simp [ppLenAt, hz, hnlt, blockDuration]
  · intro pp hpp d₁ mb₁ hmb₁ d₂ mb₂ hmb₂ hne t hcon
    obtain ⟨ht1, ht2, ht3, ht4⟩ := hcon
    have hij := blockIdx_ne M d₁ d₂ mb₁ mb₂ hmb₁ hmb₂ hne
    rcases Nat.lt_or_ge (blockIdx M d₁ mb₁) (blockIdx M d₂ mb₂) with hlt | hge
    · have hor := hser pp hpp (blockIdx M d₁ mb₁) (blockIdx_lt M d₁ mb₁ hmb₁)
        (blockIdx M d₂ mb₂) (blockIdx_lt M d₂ mb₂ hmb₂) hlt
      rw [ppVarAt_blockIdx M σ pp d₁ mb₁ hmb₁,
        ppVarAt_blockIdx M σ pp d₂ mb₂ hmb₂,
        ppLenAt_blockIdx M Df Db d₁ mb₁ hM hmb₁,
        ppLenAt_blockIdx M Df Db d₂ mb₂ hM hmb₂] at hor
      rcases hor with hor | hor
      · linarith
      · linarith
    · have hlt : blockIdx M d₂ mb₂ < blockIdx M d₁ mb₁ := by omega
      have hor := hser pp hpp (blockIdx M d₂ mb₂) (blockIdx_lt M d₂ mb₂ hmb₂)
        (blockIdx M d₁ mb₁) (blockIdx_lt M d₁ mb₁ hmb₁) hlt
      rw [ppVarAt_blockIdx M σ pp d₁ mb₁ hmb₁,
        ppVarAt_blockIdx M σ pp d₂ mb₂ hmb₂,
        ppLenAt_blockIdx M Df Db d₁ mb₁ hM hmb₁,
        ppLenAt_blockIdx M Df Db d₂ mb₂ hM hmb₂] at hor
      rcases hor with hor | hor
      · linarith
      · linarith

/-- Witness for C2 at the unit configuration. -/
theorem serial_no_overlap_witness :
    ppLenAt 1 (1 : Int) 1 0 = blockDuration 1 1 Direction.forward := by
  have h := serial_no_overlap 1 1 1 1 unitAssign (by decide) (by decide)
  have h0 := h.1 0 (by decide)
  simpa using h0

/-- C1: the activation-accumulation encoder emits exactly `P * M`
capacity constraints, each of the asserted form, and every assignment
satisfying the constructed constraints keeps the activation count within
each stage's capacity at every (stage, microbatch) pair. -/
theorem activation_capacity_bound (P M : Nat) (Df Db : Int)
    (strat : Strategy) (cap : List Int) (σ : Assignment)
    (hsat : satisfies ⟨P, M, Df, Db, strat, cap⟩ σ) :
    (activationList P M cap σ).length = P * M ∧
    (∀ c ∈ activationList P M cap σ, c) ∧
    ∀ pp < P, ∀ mb < M, activationCount M σ pp mb ≤ cap.getD pp 0 := by
  refine ⟨?_, ?_, hsat.2.2.2⟩
  · simp only [activationList, List.length_flatMap, Function.comp_def,
      List.length_map, List.map_const', List.sum_replicate, smul_eq_mul,
      List.length_range]
  · intro c hc
    unfold activationList at hc
    rw [List.mem_flatMap] at hc
    obtain ⟨pp, hpp, hc⟩ := hc
    rw [List.mem_map] at hc
    obtain ⟨mb, hmb, rfl⟩ := hc
    exact hsat.2.2.2 pp (List.mem_range.mp hpp) mb (List.mem_range.mp hmb)

/-- Witness for C1 at the unit configuration. -/
theorem activation_capacity_bound_witness :
    (activationList 1 1 [1] unitAssign).length = 1 * 1 :=
  (activation_capacity_bound 1 1 1 1 Strategy.strict [1] unitAssign
    (by decide)).1

/-- C3: a proposition is among the constraints asserted by the strict
ordering encoder precisely when it is one of the listed forward-chain,
backward-chain or handoff constraints for some microbatch, and asserting
all of them is equivalent to the strict ordering property. -/
theorem strict_constraints_exact (P M : Nat) (Df Db : Int) (σ : Assignment) :
    (∀ c : Prop, c ∈ strictList P M Df Db σ ↔
      ∃ mb < M,
        ((∃ i, 1 ≤ i ∧ i < P ∧ c = (σ.fwd i mb ≥ σ.fwd (i - 1) mb + Df)) ∨
         (∃ i, 1 ≤ i ∧ i < P ∧ c = (σ.bwd (i - 1) mb ≥ σ.bwd i mb + Db)) ∨
         c = (σ.bwd (P - 1) mb ≥ σ.fwd (P - 1) mb + Df))) ∧
    ((∀ c ∈ strictList P M Df Db σ, c) ↔ strictProp P M Df Db σ) := by
  have hmem : ∀ c : Prop, c ∈ strictList P M Df Db σ ↔
      ∃ mb < M,
        ((∃ i, 1 ≤ i ∧ i < P ∧ c = (σ.fwd i mb ≥ σ.fwd (i - 1) mb + Df)) ∨
         (∃ i, 1 ≤ i ∧ i < P ∧ c = (σ.bwd (i - 1) mb ≥ σ.bwd i mb + Db)) ∨
         c = (σ.bwd (P - 1) mb ≥ σ.fwd (P - 1) mb + Df)) := by
    intro c
    simp only [strictList, List.mem_flatMap, List.mem_append, List.mem_map,
      List.mem_reverse, List.mem_range, List.mem_range'_1, List.mem_singleton]
    constructor
    · rintro ⟨mb, hmb, h⟩
      refine ⟨mb, hmb, ?_⟩
      rcases h with (⟨i, ⟨h1, h2⟩, he⟩ | ⟨i, ⟨h1, h2⟩, he⟩) | he
      · exact Or.inl ⟨i, h1, by omega, he.symm⟩
      · exact Or.inr (Or.inl ⟨i, h1, by omega, he.symm⟩)
      · exact Or.inr (Or.inr he)
    · rintro ⟨mb, hmb, (⟨i, h1, h2, he⟩ | ⟨i, h1, h2, he⟩ | he)⟩
      · exact ⟨mb, hmb, Or.inl (Or.inl ⟨i, ⟨h1, by omega⟩, he.symm⟩)⟩
      · exact ⟨mb, hmb, Or.inl (Or.inr ⟨i, ⟨h1, by omega⟩, he.symm⟩)⟩
      · exact ⟨mb, hmb, Or.inr he⟩
  refine ⟨hmem, ?_, ?_⟩
  · intro h mb hmb
    refine ⟨?_, ?_, ?_⟩
    · intro i hi h1i
      exact h _ ((hmem _).mpr ⟨mb, hmb, Or.inl ⟨i, h1i, hi, rfl⟩⟩)
    · intro i hi h1i
      exact h _ ((hmem _).mpr ⟨mb, hmb, Or.inr (Or.inl ⟨i, h1i, hi, rfl⟩)⟩)
    · exact h _ ((hmem _).mpr ⟨mb, hmb, Or.inr (Or.inr rfl)⟩)
  · intro h c hc
    obtain ⟨mb, hmb, hcase⟩ := (hmem c).mp hc
    rcases hcase with ⟨i, h1, h2, he⟩ | ⟨i, h1, h2, he⟩ | he
    · rw [he]
      exact (h mb hmb).1 i h2 h1
    · rw [he]
      exact (h mb hmb).2.1 i h2 h1
    · rw [he]
      exact (h mb hmb).2.2

/-- Witness for C3 at the unit configuration. -/
theorem strict_constraints_exact_witness :
    (∀ c ∈ strictList 1 1 (1 : Int) 1 unitAssign, c) ↔
      strictProp 1 1 1 1 unitAssign :=
  (strict_constraints_exact 1 1 1 1 unitAssign).2

/-- With at least one stage and one microbatch, every assignment has a
well-defined last backward finish time. -/
lemma exists_lastBackwardFinish (P M : Nat) (Db : Int) (σ : Assignment)
    (hP : 0 < P) (hM : 0 < M) :
    ∃ m, isLastBackwardFinish P M Db σ m := by
  obtain ⟨x, hmem, hmax⟩ :=
    Finset.exists_max_image (Finset.range P ×ˢ Finset.range M)
      (fun x => σ.bwd x.1 x.2 + Db)
      ⟨(0, 0), by simp [Finset.mem_product, hP, hM]⟩
  obtain ⟨hx1, hx2⟩ := Finset.mem_product.mp hmem
  refine ⟨σ.bwd x.1 x.2 + Db, ?_, x.1, ?_, x.2, ?_, rfl⟩
  · intro pp hpp mb hmb
    exact hmax (pp, mb) (by simp [Finset.mem_product, hpp, hmb])
  · simpa using hx1
  · simpa using hx2

/-- C4: the single auxiliary objective variable is constrained to
dominate every backward offset; when `n` is its optimal value, some
satisfying assignment finishes its last backward block exactly at
`n + Db`, and no satisfying assignment finishes its last backward block
earlier — the optimal makespan over backward blocks equals the optimal
objective value plus `Db`. -/
theorem objective_gives_makespan (cfg : Config) (n : Int)
    (hP : 0 < cfg.pp_size) (hM : 0 < cfg.num_microbatches)
    (hopt : isOptimalObjective cfg n) :
    ∃ σ, satisfies cfg σ ∧
      isLastBackwardFinish cfg.pp_size cfg.num_microbatches
        cfg.backward_execution_time σ (n + cfg.backward_execution_time) ∧
      ∀ σ' m', satisfies cfg σ' →
        isLastBackwardFinish cfg.pp_size cfg.num_microbatches
          cfg.backward_execution_time σ' m' →
        n + cfg.backward_execution_time ≤ m' := by
  obtain ⟨⟨σ, hsat, hobj⟩, hmin⟩ := hopt
  have key : ∀ σ' m', satisfies cfg σ' →
      isLastBackwardFinish cfg.pp_size cfg.num_microbatches
        cfg.backward_execution_time σ' m' →
      n + cfg.backward_execution_time ≤ m' := by
    intro σ' m' hsat' hlast'
    have hobj' : objectiveProp cfg.pp_size cfg.num_microbatches σ'
        (m' - cfg.backward_execution_time) := by
      intro pp hpp mb hmb
      have := hlast'.1 pp hpp mb hmb
      linarith
    have := hmin σ' _ hsat' hobj'
    linarith
  obtain ⟨m, hm⟩ := exists_lastBackwardFinish cfg.pp_size
    cfg.num_microbatches cfg.backward_execution_time σ hP hM
  have h1 : n + cfg.backward_execution_time ≤ m := key σ m hsat hm
  have h2 : m ≤ n + cfg.backward_execution_time := by
    obtain ⟨pp, hpp, mb, hmb, heq⟩ := hm.2
    have := hobj pp hpp mb hmb
    linarith
  have hmn : m = n + cfg.backward_execution_time := le_antisymm h2 h1
  exact ⟨σ, hsat, hmn ▸ hm, key⟩

/-- At the one-stage, one-microbatch unit configuration with unit
durations and capacity `c ≥ 1`, the optimal objective value is 1 for
each of the three strategies. -/
lemma unit_isOptimal (strat : Strategy) (c : Int) (hc : 1 ≤ c) :
    isOptimalObjective ⟨1, 1, 1, 1, strat, [c]⟩ 1 := by
  constructor
  · refine ⟨unitAssign,
      ⟨(by decide : nonNegProp 1 1 unitAssign), ?_,
        (by decide : serialProp 1 1 1 1 unitAssign), ?_⟩,
      (by decide : objectiveProp 1 1 unitAssign 1)⟩
    · cases strat with
      | strict => exact (by decide : strictProp 1 1 1 1 unitAssign)
      | double_interleaving =>
        exact (by decide : doubleProp 1 1 1 1 unitAssign)
      | full_interleaving =>
        exact (by decide : fullProp 1 1 1 1 unitAssign)
    · intro pp hpp mb hmb
      interval_cases pp
      interval_cases mb
      have hcount : activationCount 1 unitAssign 0 0 = 1 := by decide
      rw [hcount]
      simpa using hc
  · intro σ v hsat hobj
    have hnn := hsat.1 0 Nat.one_pos 0 Nat.one_pos
    have hb : σ.bwd 0 0 ≥ σ.fwd 0 0 + 1 := by
      have hord := hsat.2.1
      cases strat with
      | strict =>
        have h : strictProp 1 1 1 1 σ := hord
        exact (h 0 Nat.one_pos).2.2
      | double_interleaving =>
        have h : doubleProp 1 1 1 1 σ := hord
        rcases h 0 Nat.one_pos with hd | hu
        · exact hd.2.2
        · exact hu.2.2
      | full_interleaving =>
        have h : fullProp 1 1 1 1 σ := hord
        obtain ⟨l, hl, hcase⟩ := h 0 Nat.one_pos
        have hperm : List.Perm l [0] := List.mem_permutations.mp hl
        have hl0 : l = [0] := List.perm_singleton.mp hperm
        subst hl0
        exact hcase.2.2
    have hv := hobj 0 Nat.one_pos 0 Nat.one_pos
    linarith [hnn.1]

/-- Replacing one entry of a capacity list by a larger value never
lowers any indexed capacity. -/
lemma getD_set_mono :
    ∀ (l : List Int) (s : Nat) (c : Int), l.getD s 0 ≤ c →
      ∀ pp, l.getD pp 0 ≤ (l.set s c).getD pp 0 := by
  intro l
  induction l with
  | nil => intro s c _ pp; simp
  | cons a t ih =>
    intro s c hc pp
    cases s with
    | zero =>
      cases pp with
      | zero => simpa using hc
      | succ pp => simp
    | succ s =>
      cases pp with
      | zero => simp
      | succ pp => simpa using ih s c (by simpa using hc) pp

/-- Pointwise capacity growth preserves satisfaction of the full
constraint store. -/
lemma satisfies_mono_cap (P M : Nat) (Df Db : Int) (strat : Strategy)
    (cap cap' : List Int) (σ : Assignment)
    (hcap : ∀ pp < P, cap.getD pp 0 ≤ cap'.getD pp 0)
    (h : satisfies ⟨P, M, Df, Db, strat, cap⟩ σ) :
    satisfies ⟨P, M, Df, Db, strat, cap'⟩ σ := by
  obtain ⟨h1, h2, h3, h4⟩ := h
  exact ⟨h1, h2, h3,
    fun pp hpp mb hmb => le_trans (h4 pp hpp mb hmb) (hcap pp hpp)⟩

/-- Every assignment satisfying the strict ordering satisfies the
double-interleaving ordering (via the down branch). -/
lemma strict_imp_double (P M : Nat) (Df Db : Int) (σ : Assignment)
    (h : strictProp P M Df Db σ) : doubleProp P M Df Db σ :=
  fun mb hmb => Or.inl (h mb hmb)

/-- Indexing the ascending stage list. -/
lemma range_getD (P k : Nat) (hk : k < P) : (List.range P).getD k 0 = k := by
  have hlen : k < (List.range P).length := by simpa using hk
  rw [List.getD_eq_getElem _ _ hlen]
  exact List.getElem_range k hlen

/-- Indexing the descending stage list. -/
lemma reverse_range_getD (P k : Nat) (hk : k < P) :
    (List.range P).reverse.getD k 0 = P - 1 - k := by
  have hlen : k < (List.range P).reverse.length := by simpa using hk
  rw [List.getD_eq_getElem _ _ hlen, List.getElem_reverse,
    List.getElem_range]
  simp

/-- The down branch matches the full-interleaving disjunct for the
identity stage ordering. -/
lemma downCase_fullCase (P : Nat) (Df Db : Int) (σ : Assignment)
    (mb : Nat) (hP : 0 < P) (h : downCase P Df Db σ mb) :
    fullCase Df Db σ mb (List.range P) := by
  obtain ⟨h1, h2, h3⟩ := h
  have hlen : (List.range P).length = P := List.length_range P
  refine ⟨?_, ?_, ?_⟩
  · intro i hi
    rw [hlen] at hi
    rw [range_getD P (i + 1) (by omega), range_getD P i (by omega)]
    have := h1 (i + 1) (by omega) (by omega)
    simpa using this
  · intro i hi h1i
    rw [hlen] at hi
    rw [range_getD P (i - 1) (by omega), range_getD P i (by omega)]
    exact h2 i hi h1i
  · rw [hlen, range_getD P (P - 1) (by omega)]
    exact h3

/-- The up branch matches the full-interleaving disjunct for the
reversed stage ordering. -/
lemma upCase_fullCase (P : Nat) (Df Db : Int) (σ : Assignment)
    (mb : Nat) (hP : 0 < P) (h : upCase P Df Db σ mb) :
    fullCase Df Db σ mb (List.range P).reverse := by
  obtain ⟨h1, h2, h3⟩ := h
  have hlen : (List.range P).reverse.length = P := by simp
  refine ⟨?_, ?_, ?_⟩
  · intro i hi
    rw [hlen] at hi
    rw [reverse_range_getD P (i + 1) (by omega),
      reverse_range_getD P i (by omega)]
    have := h1 (P - 1 - i) (by omega) (by omega)
    have he : P - 1 - i - 1 = P - 1 - (i + 1) := by omega
    rw [he] at this
    exact this
  · intro i hi h1i
    rw [hlen] at hi
    rw [reverse_range_getD P (i - 1) (by omega),
      reverse_range_getD P i (by omega)]
    have := h2 (P - i) (by omega) (by omega)
    have he1 : P - 1 - (i - 1) = P - i := by omega
    have he2 : P - i - 1 = P - 1 - i := by omega
    rw [he1]
    rw [he2] at this
    exact this
  · rw [hlen, reverse_range_getD P (P - 1) (by omega)]
    have he : P - 1 - (P - 1) = 0 := by omega
    rw [he]
    exact h3

/-- Every assignment satisfying the double-interleaving ordering
satisfies the full-interleaving ordering. -/
lemma double_imp_full (P M : Nat) (Df Db : Int) (σ : Assignment)
    (hP : 0 < P) (h : doubleProp P M Df Db σ) :
    fullProp P M Df Db σ := by
  intro mb hmb
  rcases h mb hmb with hd | hu
  · exact ⟨List.range P, List.mem_permutations.mpr (List.Perm.refl _),
      downCase_fullCase P Df Db σ mb hP hd⟩
  · exact ⟨(List.range P).reverse,
      List.mem_permutations.mpr ((List.range P).reverse_perm),
      upCase_fullCase P Df Db σ mb hP hu⟩

/-- Strategy relaxation strict to double-interleaving preserves
satisfaction. -/
lemma satisfies_strict_double (P M : Nat) (Df Db : Int) (cap : List Int)
    (σ : Assignment)
    (h : satisfies ⟨P, M, Df, Db, .strict, cap⟩ σ) :
    satisfies ⟨P, M, Df, Db, .double_interleaving, cap⟩ σ :=
  ⟨h.1, strict_imp_double P M Df Db σ h.2.1, h.2.2.1, h.2.2.2⟩

/-- Strategy relaxation double-interleaving to full-interleaving
preserves satisfaction. -/
lemma satisfies_double_full (P M : Nat) (Df Db : Int) (cap : List Int)
    (σ : Assignment) (hP : 0 < P)
    (h : satisfies ⟨P, M, Df, Db, .double_interleaving, cap⟩ σ) :
    satisfies ⟨P, M, Df, Db, .full_interleaving, cap⟩ σ :=
  ⟨h.1, double_imp_full P M Df Db σ hP h.2.1, h.2.2.1, h.2.2.2⟩

/-- When every assignment feasible for `cfg` is feasible for `cfg'`
(same shape), the optimal objective for `cfg'` is no larger. -/
lemma optimal_le_of_imp (cfg cfg' : Config)
    (hP : cfg'.pp_size = cfg.pp_size)
    (hM : cfg'.num_microbatches = cfg.num_microbatches)
    (himp : ∀ σ, satisfies cfg σ → satisfies cfg' σ)
    (n n' : Int) (h : isOptimalObjective cfg n)
    (h' : isOptimalObjective cfg' n') : n' ≤ n := by
  obtain ⟨⟨σ, hsat, hobj⟩, _⟩ := h
  refine h'.2 σ n (himp σ hsat) ?_
  rw [hP, hM]
  exact hobj

/-- C5: with everything else fixed, raising one stage's capacity never
raises the optimal objective value (hence never the optimal makespan),
and relaxing the strategy from strict to double-interleave, or from
double-interleave to full-interleave, never raises it either. -/
theorem optimal_makespan_monotone (P M : Nat) (Df Db : Int)
    (strat : Strategy) (cap : List Int) (s : Nat) (c : Int)
    (hP : 0 < P) (hc : cap.getD s 0 ≤ c)
    (n₁ n₂ m₁ m₂ m₃ : Int)
    (h₁ : isOptimalObjective ⟨P, M, Df, Db, strat, cap⟩ n₁)
    (h₂ : isOptimalObjective ⟨P, M, Df, Db, strat, cap.set s c⟩ n₂)
    (hs₁ : isOptimalObjective ⟨P, M, Df, Db, .strict, cap⟩ m₁)
    (hs₂ : isOptimalObjective ⟨P, M, Df, Db, .double_interleaving, cap⟩ m₂)
    (hs₃ : isOptimalObjective ⟨P, M, Df, Db, .full_interleaving, cap⟩ m₃) :
    n₂ ≤ n₁ ∧ m₂ ≤ m₁ ∧ m₃ ≤ m₂ := by
  refine ⟨?_, ?_, ?_⟩
  · exact optimal_le_of_imp ⟨P, M, Df, Db, strat, cap⟩
      ⟨P, M, Df, Db, strat, cap.set s c⟩ rfl rfl
      (fun σ h => satisfies_mono_cap P M Df Db strat cap (cap.set s c) σ
        (fun pp _ => getD_set_mono cap s c hc pp) h) n₁ n₂ h₁ h₂
  · exact optimal_le_of_imp ⟨P, M, Df, Db, .strict, cap⟩
      ⟨P, M, Df, Db, .double_interleaving, cap⟩ rfl rfl
      (fun σ h => satisfies_strict_double P M Df Db cap σ h) m₁ m₂ hs₁ hs₂
  · exact optimal_le_of_imp ⟨P, M, Df, Db, .double_interleaving, cap⟩
      ⟨P, M, Df, Db, .full_interleaving, cap⟩ rfl rfl
      (fun σ h => satisfies_double_full P M Df Db cap σ hP h) m₂ m₃ hs₂ hs₃

/-- Witness for C5 at the unit configuration. -/
theorem optimal_makespan_monotone_witness :
    (1 : Int) ≤ 1 ∧ (1 : Int) ≤ 1 ∧ (1 : Int) ≤ 1 :=
  optimal_makespan_monotone 1 1 1 1 Strategy.strict [1] 0 2
    (by decide) (by decide) 1 1 1 1 1
    (unit_isOptimal Strategy.strict 1 le_rfl)
    (unit_isOptimal Strategy.strict 2 (by norm_num))
    (unit_isOptimal Strategy.strict 1 le_rfl)
    (unit_isOptimal Strategy.double_interleaving 1 le_rfl)
    (unit_isOptimal Strategy.full_interleaving 1 le_rfl)

/-- Counterexample for C8 as stated: with one stage, a full satisfying
assignment of the double-interleave model exists for which both the down
branch and the up branch hold at microbatch 0, so it is not true that in
every satisfying assignment exactly one branch holds per microbatch. -/
theorem double_branch_cex :
    satisfies ⟨1, 1, 1, 1, Strategy.double_interleaving, [1]⟩ unitAssign ∧
    downCase 1 1 1 unitAssign 0 ∧ upCase 1 1 1 unitAssign 0 := by
  decide

/-- C8 (amended): the double-interleave encoder asserts, per microbatch,
the disjunction of the down and up conjunctions; every satisfying
assignment satisfies at least one branch per microbatch, and when there
are at least two stages and the forward duration is positive the two
branches are mutually exclusive, so exactly one holds.  (With a single
stage the two branches coincide and both hold.) -/
theorem double_branch_exclusive (P M : Nat) (Df Db : Int) (σ : Assignment)
    (hP : 2 ≤ P) (hDf : 0 < Df) (h : doubleProp P M Df Db σ) :
    ∀ mb < M, (downCase P Df Db σ mb ∨ upCase P Df Db σ mb) ∧
      ¬(downCase P Df Db σ mb ∧ upCase P Df Db σ mb) := by
  intro mb hmb
  refine ⟨h mb hmb, ?_⟩
  rintro ⟨hd, hu⟩
  have h1 : σ.fwd 1 mb ≥ σ.fwd 0 mb + Df := hd.1 1 (by omega) (by omega)
  have h2 : σ.fwd 0 mb ≥ σ.fwd 1 mb + Df := hu.1 1 (by omega) (by omega)
  linarith

/-- Witness for C8's amended statement at a two-stage configuration. -/
theorem double_branch_exclusive_witness :
    (downCase 2 1 1 pairAssign 0 ∨ upCase 2 1 1 pairAssign 0) ∧
      ¬(downCase 2 1 1 pairAssign 0 ∧ upCase 2 1 1 pairAssign 0) :=
  double_branch_exclusive 2 1 1 1 pairAssign (by decide) (by decide)
    (by decide) 0 (by decide)

/-- C9: with a single stage the three ordering encoders are logically
equivalent, each reducing per microbatch to the single requirement that
the backward offset at stage 0 is at least the forward offset at stage 0
plus `Df`. -/
theorem p1_strategies_equivalent (M : Nat) (Df Db : Int) (σ : Assignment) :
    (strictProp 1 M Df Db σ ↔
      ∀ mb < M, σ.bwd 0 mb ≥ σ.fwd 0 mb + Df) ∧
    (doubleProp 1 M Df Db σ ↔
      ∀ mb < M, σ.bwd 0 mb ≥ σ.fwd 0 mb + Df) ∧
    (fullProp 1 M Df Db σ ↔
      ∀ mb < M, σ.bwd 0 mb ≥ σ.fwd 0 mb + Df) := by
  refine ⟨?_, ?_, ?_⟩
  · constructor
    · intro h mb hmb
      exact (h mb hmb).2.2
    · intro h mb hmb
      exact ⟨fun i hi h1i => absurd h1i (by omega),
        fun i hi h1i => absurd h1i (by omega), h mb hmb⟩
  · constructor
    · intro h mb hmb
      rcases h mb hmb with hd | hu
      · exact hd.2.2
      · exact hu.2.2
    · intro h mb hmb
      exact Or.inl ⟨fun i hi h1i => absurd h1i (by omega),
        fun i hi h1i => absurd h1i (by omega), h mb hmb⟩
  · constructor
    · intro h mb hmb
      obtain ⟨l, hl, hc⟩ := h mb hmb
      have hperm : List.Perm l [0] := List.mem_permutations.mp hl
      have hl0 : l = [0] := List.perm_singleton.mp hperm
      subst hl0
      exact hc.2.2
    · intro h mb hmb
      refine ⟨[0], List.mem_permutations.mpr (List.Perm.refl [0]),
        ?_, ?_, h mb hmb⟩
      · intro i hi
        simp at hi
      · intro i hi h1i
        simp at hi
        omega

/-- Witness for C9 applied at the unit configuration. -/
theorem p1_strategies_equivalent_witness :
    strictProp 1 1 (1 : Int) 1 unitAssign ↔
      ∀ mb < 1, unitAssign.bwd 0 mb ≥ unitAssign.fwd 0 mb + 1 :=
  (p1_strategies_equivalent 1 1 1 unitAssign).1

/-- A raw configuration with an integer but negative forward duration
and a capacity array whose length (0) differs from the stage count (2):
the constructor's checks accept it. -/
def badRawConfig : RawConfig :=
  ⟨2, 2, [], PyValue.pyInt (-1), PyValue.pyInt 1, "strict"⟩

/-- Counterexample for C6 as stated: `Simulator.__init__` accepts a
configuration whose forward duration is a non-positive integer and whose
capacity-array length differs from the stage count, so such
configurations are not rejected before model construction. -/
theorem init_validation_cex :
    initAccepts badRawConfig = true ∧
    badRawConfig.forward_execution_time = PyValue.pyInt (-1) ∧
    badRawConfig.max_activation_times.length = 0 ∧
    badRawConfig.pp_size = 2 := by
  refine ⟨rfl, rfl, rfl, rfl⟩

/-- C6 (amended): Simulator construction fails fast exactly when a
duration field is not an int or the strategy name is not one of the
three supported values; positivity of durations and the length of the
capacity array are not validated at construction. -/
theorem init_validation_exact (c : RawConfig) :
    initAccepts c = true ↔
      (isInstanceInt c.forward_execution_time = true ∧
       isInstanceInt c.backward_execution_time = true ∧
       (c.sequential_order_constraint_strategy = "strict" ∨
        c.sequential_order_constraint_strategy = "double_interleaving" ∨
        c.sequential_order_constraint_strategy = "full_interleaving")) := by
  simp [initAccepts, Bool.and_eq_true, Bool.or_eq_true, and_assoc, or_assoc]

/-- Witness for C6's amended statement at a concrete configuration. -/
theorem init_validation_witness :
    initAccepts ⟨4, 6, [4, 3, 2, 1], PyValue.pyInt 2, PyValue.pyInt 3,
      "strict"⟩ = true :=
  (init_validation_exact _).mpr (by decide)

/-- Counterexample for C7 as stated: the run step reports the unknown
solver outcome with the same "Result: UNSAT" message as a definitive
unsatisfiable outcome, so a non-SAT, non-UNSAT outcome is reported as
infeasible. -/
theorem run_report_cex :
    runReport Z3CheckResult.unknown = "Result: UNSAT" ∧
    runReport Z3CheckResult.unsat = "Result: UNSAT" :=
  ⟨rfl, rfl⟩

/-- C7 (amended): the run step distinguishes only sat from everything
else: it prints the infeasibility message exactly when the solver result
is not sat, so unknown outcomes are reported as UNSAT. -/
theorem run_report_exact (r : Z3CheckResult) :
    runReport r = "Result: UNSAT" ↔ r ≠ Z3CheckResult.sat := by
  cases r <;> decide

/-- Witness for C7's amended statement at the unknown outcome. -/
theorem run_report_witness : Z3CheckResult.unknown ≠ Z3CheckResult.sat :=
  (run_report_exact Z3CheckResult.unknown).mp (by decide)

/-- Witness for C4 at the unit configuration. -/
theorem objective_gives_makespan_witness :
    ∃ σ, satisfies ⟨1, 1, 1, 1, Strategy.strict, [1]⟩ σ ∧
      isLastBackwardFinish 1 1 1 σ ((1 : Int) + 1) ∧
      ∀ σ' m', satisfies ⟨1, 1, 1, 1, Strategy.strict, [1]⟩ σ' →
        isLastBackwardFinish 1 1 1 σ' m' → (1 : Int) + 1 ≤ m' :=
  objective_gives_makespan ⟨1, 1, 1, 1, Strategy.strict, [1]⟩ 1
    (by decide) (by decide) (unit_isOptimal Strategy.strict 1 le_rfl)

end PipelineSim
